import Mathlib

set_option maxRecDepth 1000000

/-!
Shallow embedding of `src/main.py` (fand/exr-to-rgb8-mkv).

The program converts a directory of single-channel EXR frames into a lossless
FFV1 video: pass 1 scans every frame for the global min/max of the chosen
channel; pass 2 normalizes each frame against that range, packs every float32
sample into 4 little-endian bytes (RGBA8), and pipes the frames in order to an
ffmpeg subprocess.

Modelling choices:
* float32 sample values are modelled as exact rationals (`Frac`, an
  unreduced `Int`/`Nat` fraction) extended with the IEEE specials `+inf`,
  `-inf` and `nan` (`Val`).  Real-number arithmetic of the normalization step
  is exact here; at every concrete value used in the theorems below the
  float32 result coincides with the exact one, as all those values are
  exactly representable.
* `f32bits` converts an exact value to the IEEE-754 binary32 bit pattern with
  round-to-nearest-even, the bit pattern `struct.pack('<f', v)` serializes;
  `quadOfBits` is the little-endian byte split.  The model has no host
  endianness: the byte order is the fixed one the source requests with `'<f'`.
* File discovery and sorting are out-of-scope collaborators (spec §1); the
  pipeline model takes the ordered file list (path, decoded frame) that
  `sorted(glob.glob(...))` produces, so "lexicographic filename order" is the
  order of that list.
* I/O effects of `main` are modelled as an event trace: scanning a file,
  writing a frame's bytes to the encoder sink, closing the sink, terminating
  the encoder process and waiting for it.  The encoder subprocess's exit
  status is an input of the model (`encStatus`), mirroring what `proc.wait()`
  returns.
-/

namespace ExrRgb8

/-- Exact rational number as an unreduced fraction; the denominator is kept
positive by every operation below.  Used to model float sample values. -/
structure Frac where
  num : Int
  den : Nat
deriving DecidableEq

/-- Exact subtraction of fractions. -/
def Frac.sub (x y : Frac) : Frac := ⟨x.num * y.den - y.num * x.den, x.den * y.den⟩

/-- Exact multiplication of fractions. -/
def Frac.mul (x y : Frac) : Frac := ⟨x.num * y.num, x.den * y.den⟩

/-- Exact division of fractions; only called with `y.num ≠ 0`. -/
def Frac.div (x y : Frac) : Frac :=
  ⟨x.num * y.den * (if y.num < 0 then -1 else 1), x.den * y.num.natAbs⟩

/-- Strict order on fractions (cross multiplication; denominators positive). -/
def Frac.blt (x y : Frac) : Bool := x.num * y.den < y.num * x.den

/-- Non-strict order on fractions. -/
def Frac.ble (x y : Frac) : Bool := x.num * y.den ≤ y.num * x.den

/-- Negation of a fraction. -/
def Frac.neg (x : Frac) : Frac := ⟨-x.num, x.den⟩

/-- The fraction 0 (the value `0.0` of the source). -/
def Frac.zero : Frac := ⟨0, 1⟩

/-- A float32 sample value: a finite exact value or one of the IEEE specials.
`numpy.frombuffer(..., dtype=np.float32)` yields such values. -/
inductive Val where
  | fin (q : Frac)
  | pinf
  | ninf
  | nan
deriving DecidableEq

/-- IEEE `<` on values: any comparison against NaN is false. -/
def vlt : Val → Val → Bool
  | .nan, _ => false
  | _, .nan => false
  | .fin a, .fin b => a.blt b
  | .fin _, .pinf => true
  | .fin _, .ninf => false
  | .pinf, _ => false
  | .ninf, .ninf => false
  | .ninf, _ => true

/-- IEEE `>` on values, as the source writes it (`a > b`). -/
def vgt (a b : Val) : Bool := vlt b a

/-- IEEE `≤` on values: any comparison against NaN is false. -/
def vle : Val → Val → Bool
  | .nan, _ => false
  | _, .nan => false
  | .fin a, .fin b => a.ble b
  | .fin _, .pinf => true
  | .fin _, .ninf => false
  | .pinf, .pinf => true
  | .pinf, _ => false
  | .ninf, _ => true

/-- IEEE subtraction `x - y` restricted to the exact model (no rounding). -/
def vsub : Val → Val → Val
  | .nan, _ => .nan
  | _, .nan => .nan
  | .fin a, .fin b => .fin (a.sub b)
  | .fin _, .pinf => .ninf
  | .fin _, .ninf => .pinf
  | .pinf, .pinf => .nan
  | .pinf, _ => .pinf
  | .ninf, .ninf => .nan
  | .ninf, _ => .ninf

/-- IEEE division `x / y` restricted to the exact model (no rounding; the
sign of a zero is not tracked, signed zeros both being the exact 0). -/
def vdiv : Val → Val → Val
  | .nan, _ => .nan
  | _, .nan => .nan
  | .fin a, .fin b =>
      if b.num = 0 then
        if a.num = 0 then .nan else if 0 < a.num then .pinf else .ninf
      else .fin (a.div b)
  | .fin _, .pinf => .fin Frac.zero
  | .fin _, .ninf => .fin Frac.zero
  | .pinf, .pinf => .nan
  | .pinf, .ninf => .nan
  | .pinf, .fin b => if b.num < 0 then .ninf else .pinf
  | .ninf, .pinf => .nan
  | .ninf, .ninf => .nan
  | .ninf, .fin b => if b.num < 0 then .pinf else .ninf

/-- NaN test on a value. -/
def Val.isNaN : Val → Bool
  | .nan => true
  | _ => false

/-- numpy's pairwise minimum: NaN-propagating, otherwise the smaller value. -/
def vminNP : Val → Val → Val
  | .nan, _ => .nan
  | _, .nan => .nan
  | .fin a, .fin b => if Frac.blt b a then .fin b else .fin a
  | .pinf, y => y
  | x, .pinf => x
  | .ninf, _ => .ninf
  | _, .ninf => .ninf

/-- numpy's pairwise maximum: NaN-propagating, otherwise the larger value. -/
def vmaxNP : Val → Val → Val
  | .nan, _ => .nan
  | _, .nan => .nan
  | .fin a, .fin b => if Frac.blt a b then .fin b else .fin a
  | .ninf, y => y
  | x, .ninf => x
  | .pinf, _ => .pinf
  | _, .pinf => .pinf

/-- `arr.min()` of numpy: the NaN-propagating minimum of all elements.
numpy raises on an empty array; frames always have at least one sample,
the `[]` case is an arbitrary total extension. -/
def npMin : List Val → Val
  | [] => .nan
  | x :: xs => xs.foldl vminNP x

/-- `arr.max()` of numpy: the NaN-propagating maximum of all elements. -/
def npMax : List Val → Val
  | [] => .nan
  | x :: xs => xs.foldl vmaxNP x

/-- Powers of two as exact fractions. -/
def fpow2 (e : Int) : Frac := if 0 ≤ e then ⟨2 ^ e.toNat, 1⟩ else ⟨1, 2 ^ (-e).toNat⟩

/-- Floor of a fraction (denominator positive). -/
def Frac.floor (x : Frac) : Int := Int.fdiv x.num x.den

/-- Round to nearest integer, ties to even (the IEEE-754 default rounding
`struct.pack('<f', ...)` applies when a value is not representable). -/
def rne (q : Frac) : Int :=
  let f := q.floor
  let r2 : Int := 2 * (q.num - f * q.den)
  if r2 < q.den then f
  else if (q.den : Int) < r2 then f + 1
  else if f % 2 = 0 then f else f + 1

/-- Largest exponent `e ∈ [-150, 127]` with `2^e ≤ a` (for `a > 0`);
`-150` when `a` is below the whole float32 range. -/
def fexp (a : Frac) : Int :=
  match (List.range 278).find? (fun i => (fpow2 (127 - (i : Int))).ble a) with
  | some i => 127 - (i : Int)
  | none => -150

/-- IEEE-754 binary32 bit pattern of a positive exact value, with
round-to-nearest-even, subnormal range and overflow to infinity. -/
def f32bitsPos (a : Frac) : Nat :=
  let e : Int := max (fexp a) (-126)
  let m : Int := rne (a.mul (fpow2 (23 - e)))
  let em : Int × Int := if 2 ^ 24 ≤ m then (e + 1, 2 ^ 23) else (e, m)
  if 127 < em.1 then 0x7F800000
  else if em.2 < 2 ^ 23 then em.2.toNat
  else (em.1 + 127).toNat * 2 ^ 23 + (em.2 - 2 ^ 23).toNat

/-- IEEE-754 binary32 bit pattern of an exact finite value: the 32-bit word
`struct.pack('<f', v)` serializes. -/
def f32bits (q : Frac) : Nat :=
  if q.num = 0 then 0
  else if 0 < q.num then f32bitsPos q
  else 2 ^ 31 + f32bitsPos q.neg

/-- Bit pattern of any sample value, specials included (NaN is packed as the
canonical quiet NaN; no theorem below depends on a NaN payload). -/
def pack32 : Val → Nat
  | .fin q => f32bits q
  | .pinf => 0x7F800000
  | .ninf => 0xFF800000
  | .nan => 0x7FC00000

/-- Little-endian byte split of a 32-bit word: `struct.pack('<f', v)` as the
list of its 4 bytes, least-significant byte first (`b[0] .. b[3]` of the
source, stored as R, G, B, A). -/
def quadOfBits (b : Nat) : List Nat :=
  [b % 256, b / 256 % 256, b / 65536 % 256, b / 16777216 % 256]

/-- Modelled from the spec: the inverse `decode(quad) -> float32` of §4.1.
The source has no decoder; per the spec the quad is the least-significant-
byte-first split of the float's bit pattern, so decoding reassembles the
32-bit word from the 4 bytes. -/
def bitsOfQuad : List Nat → Nat
  | b0 :: b1 :: b2 :: b3 :: _ => b0 + 256 * b1 + 65536 * b2 + 16777216 * b3
  | _ => 0

/-- The 4 RGBA bytes the source packs for one sample value. -/
def quadLE (v : Val) : List Nat := quadOfBits (pack32 v)

/-- A decoded frame: the (W, H) of its data window and the channel samples,
`height` rows of `width` samples, as `np.frombuffer(...).reshape((height,
width))` produces. -/
structure Frame where
  width : Nat
  height : Nat
  samples : List (List Val)
deriving DecidableEq

/-- Well-formedness of a decoded frame: the sample grid really has `height`
rows of `width` samples (the reshape of the source guarantees this). -/
def Frame.WF (f : Frame) : Prop :=
  f.samples.length = f.height ∧ ∀ r ∈ f.samples, r.length = f.width

instance (f : Frame) : Decidable f.WF := by unfold Frame.WF; infer_instance

/-- `get_exr_min_max`: the per-file minimum and maximum of the channel data
(numpy `.min()` / `.max()` over the flat sample buffer). -/
def get_exr_min_max (f : Frame) : Val × Val :=
  (npMin f.samples.flatten, npMax f.samples.flatten)

/-- Does a frame's channel data contain at least one NaN sample? -/
def Frame.hasNaN (f : Frame) : Bool := f.samples.flatten.any Val.isNaN

/-- The normalization step of `exr_to_rgba8_bytes_with_global_scale`:
`if global_max > global_min` every sample is mapped to
`(s - global_min) / (global_max - global_min)`, else the array is filled
with `0.0` (no division happens on that branch). -/
def normalizeRows (gmin gmax : Val) (rows : List (List Val)) : List (List Val) :=
  if vgt gmax gmin then
    rows.map (List.map (fun s => vdiv (vsub s gmin) (vsub gmax gmin)))
  else
    rows.map (List.map (fun _ => Val.fin Frac.zero))

/-- `depth_arr[y, x]` of the source's packing loop: sample at row `y`,
column `x` (defaulting to `0.0` outside the grid, which a well-formed frame
never hits). -/
def sampleAt (rows : List (List Val)) (y x : Nat) : Val :=
  (rows.getD y []).getD x (Val.fin Frac.zero)

/-- The packing double loop of the source: `for y in range(height): for x in
range(width):` store the 4 little-endian bytes of `depth_arr[y, x]` at
`rgba[y, x, 0..3]`; `rgba.tobytes()` then yields the bytes in row-major
scan order. -/
def rgbaLoopBytes (w h : Nat) (rows : List (List Val)) : List Nat :=
  ((List.range h).map (fun y =>
    ((List.range w).map (fun x => quadLE (sampleAt rows y x))).flatten)).flatten

/-- `exr_to_rgba8_bytes_with_global_scale`: normalize the frame's channel
data against the global range and pack it to RGBA8 bytes; returns the packed
buffer together with the frame's (width, height). -/
def exr_to_rgba8_bytes_with_global_scale (f : Frame) (gmin gmax : Val) :
    List Nat × Nat × Nat :=
  (rgbaLoopBytes f.width f.height (normalizeRows gmin gmax f.samples),
   f.width, f.height)

/-- Modelled from the spec: the `Raw` mode of FrameEncoder (§4.3), absent
from the source — pack each sample's bit pattern directly, no normalization,
so the buffer is the little-endian byte concatenation of the raw samples in
scan order. -/
def rawPackRows (rows : List (List Val)) : List Nat :=
  (rows.map (fun r => (r.map quadLE).flatten)).flatten

/-- An input file of the run: its path and its decoded frame.  The list of
these stands for `sorted(glob.glob(os.path.flatten(exr_dir, '*.exr')))`, i.e.
it is already in lexicographic filename order (file discovery and sorting
are out-of-scope collaborators, spec §1). -/
abbrev FileEntry := String × Frame

/-- Observable I/O steps of `main`, in program order. -/
inductive Event where
  | scanned (path : String)
  | wrote (bytes : List Nat)
  | sinkClosed
  | procTerminated
  | procWaited (status : Nat)
deriving DecidableEq

/-- Has an event scanned a file? -/
def Event.isScanned : Event → Bool
  | .scanned _ => true
  | _ => false

/-- Has an event written frame bytes to the encoder sink? -/
def Event.isWrote : Event → Bool
  | .wrote _ => true
  | _ => false

/-- How a run of `main` ends. -/
inductive RunExit where
  | noInput
  | rangeErr
  | geomErr (path : String) (expected got : Nat × Nat)
  | done
deriving DecidableEq

/-- Outcome of a run of `main`: its I/O trace, its process exit code, and
how it ended. -/
structure RunOutcome where
  trace : List Event
  exitCode : Nat
  result : RunExit
deriving DecidableEq

/-- One step of pass 1: fold a file's (min, max) into the running global
pair exactly as the source does (`if frame_min < global_min: ...;
if frame_max > global_max: ...`). -/
def scanUpd (g : Val × Val) (fm fM : Val) : Val × Val :=
  (if vlt fm g.1 then fm else g.1, if vgt fM g.2 then fM else g.2)

/-- Pass 1 of `main`: scan every file, starting from the sentinels
`global_min = float('inf')`, `global_max = float('-inf')`. -/
def scanFold (files : List FileEntry) : Val × Val :=
  files.foldl
    (fun g f => scanUpd g (get_exr_min_max f.2).1 (get_exr_min_max f.2).2)
    (Val.pinf, Val.ninf)

/-- The remaining-frames loop of pass 2 (`for exr_path in exr_list[1:]`):
encode each frame, abort on a resolution mismatch (returning the offending
path and its geometry, and writing nothing further), else write the packed
bytes and continue. -/
def streamRest (w h : Nat) (gmin gmax : Val) :
    List FileEntry → List Event × Option (String × Nat × Nat)
  | [] => ([], none)
  | f :: fs =>
    if (exr_to_rgba8_bytes_with_global_scale f.2 gmin gmax).2.1 ≠ w ∨
        (exr_to_rgba8_bytes_with_global_scale f.2 gmin gmax).2.2 ≠ h then
      ([], some (f.1, (exr_to_rgba8_bytes_with_global_scale f.2 gmin gmax).2.1,
        (exr_to_rgba8_bytes_with_global_scale f.2 gmin gmax).2.2))
    else
      (Event.wrote (exr_to_rgba8_bytes_with_global_scale f.2 gmin gmax).1 ::
        (streamRest w h gmin gmax fs).1,
       (streamRest w h gmin gmax fs).2)

/-- The whole `main` after argument handling, as a trace-producing function:
empty file list → diagnostic and `sys.exit(1)`; pass 1 scan; sentinel check;
encode-and-write the first frame (this fixes the canonical geometry), stream
the rest; on a geometry mismatch close the sink, terminate ffmpeg and
`sys.exit(1)`; otherwise close the sink, `proc.wait()` (whose status
`encStatus` the source ignores) and finish with exit code 0. -/
def mainRun (files : List FileEntry) (encStatus : Nat) : RunOutcome :=
  match files with
  | [] => ⟨[], 1, .noInput⟩
  | first :: rest =>
    let scanEvs := (first :: rest).map (fun f => Event.scanned f.1)
    let g := scanFold (first :: rest)
    if g.1 = Val.pinf ∨ g.2 = Val.ninf then ⟨scanEvs, 1, .rangeErr⟩
    else
      let r0 := exr_to_rgba8_bytes_with_global_scale first.2 g.1 g.2
      let s := streamRest r0.2.1 r0.2.2 g.1 g.2 rest
      match s.2 with
      | some e =>
        ⟨scanEvs ++ Event.wrote r0.1 :: s.1 ++ [Event.sinkClosed, Event.procTerminated],
         1, .geomErr e.1 (r0.2.1, r0.2.2) (e.2.1, e.2.2)⟩
      | none =>
        ⟨scanEvs ++ Event.wrote r0.1 :: s.1 ++ [Event.sinkClosed, Event.procWaited encStatus],
         0, .done⟩

/-- The frame buffers written to the encoder sink, in trace order. -/
def writesOf : List Event → List (List Nat)
  | [] => []
  | Event.wrote b :: es => b :: writesOf es
  | _ :: es => writesOf es

/-- Outcome of the argument handling at the top of `main`. -/
inductive CliOutcome where
  | usageError
  | notDirError (dir : String)
  | proceed (dir out channel : String)
deriving DecidableEq

/-- The argument handling of `main`: fewer than 3 entries in `sys.argv`
(program name included) prints the usage line and exits 1; then the input
directory is checked (`os.path.isdir`, modelled by the predicate `isDir`);
the channel name defaults to `'Z'` when absent. -/
def parseCli (argv : List String) (isDir : String → Bool) : CliOutcome :=
  if argv.length < 3 then .usageError
  else
    let dir := argv.getD 1 ""
    let out := argv.getD 2 ""
    let channel := if 3 < argv.length then argv.getD 3 "" else "Z"
    if isDir dir then .proceed dir out channel else .notDirError dir

/-- Process exit code of the argument-handling outcomes (`sys.exit(1)` on
either diagnostic; otherwise the run proceeds). -/
def cliExitCode : CliOutcome → Nat
  | .proceed _ _ _ => 0
  | _ => 1

/-- Concrete frame of the spec's scenario: 2×2 samples `[[0, 1], [2, 3]]`. -/
def sampleFrame1 : Frame :=
  ⟨2, 2, [[.fin ⟨0, 1⟩, .fin ⟨1, 1⟩], [.fin ⟨2, 1⟩, .fin ⟨3, 1⟩]]⟩

/-- Concrete frame of the spec's scenario: 2×2 samples `[[1, 2], [3, 4]]`. -/
def sampleFrame2 : Frame :=
  ⟨2, 2, [[.fin ⟨1, 1⟩, .fin ⟨2, 1⟩], [.fin ⟨3, 1⟩, .fin ⟨4, 1⟩]]⟩

/-- The scenario's two-file input sequence, in filename order. -/
def sampleFiles : List FileEntry :=
  [("frame000.exr", sampleFrame1), ("frame001.exr", sampleFrame2)]

/-- A 3×1 frame, geometry-incompatible with the 2×2 scenario frames. -/
def wideFrame : Frame :=
  ⟨3, 1, [[.fin ⟨1, 1⟩, .fin ⟨2, 1⟩, .fin ⟨3, 1⟩]]⟩

/-- A 1×1 frame holding a single NaN sample. -/
def nanFrame : Frame := ⟨1, 1, [[.nan]]⟩

/-! ## Helper lemmas -/

theorem vgt_eq_false_of_vle (a b : Val) (h : vle a b = true) : vgt a b = false := by
  cases a <;> cases b <;>
    first
    | rfl
    | (rename_i x y
       have hx : x.num * y.den ≤ y.num * x.den := by simpa [vle, Frac.ble] using h
       simpa [vgt, vlt, Frac.blt] using not_lt.mpr hx)
    | simp [vle] at h

theorem getD_range_map {α : Type} (l : List α) (d : α) :
    (List.range l.length).map (fun x => l.getD x d) = l := by
  induction l with
  | nil => rfl
  | cons a t ih =>
    simp only [List.length_cons, List.range_succ_eq_map, List.map_cons, List.map_map,
      List.getD_cons_zero]
    refine congrArg (List.cons a) ?_
    simpa only [Function.comp, List.getD_cons_succ] using ih

theorem getD_map_const {α β : Type} (c : β) (l : List α) (x : Nat) :
    (l.map (fun _ => c)).getD x c = c := by
  induction l generalizing x with
  | nil => rfl
  | cons a t ih => cases x with
    | zero => rfl
    | succ n => exact ih n

theorem sampleAt_map_const (l : List (List Val)) (y x : Nat) :
    sampleAt (l.map (List.map (fun _ => Val.fin Frac.zero))) y x = Val.fin Frac.zero := by
  induction l generalizing y with
  | nil => cases y <;> rfl
  | cons r t ih => cases y with
    | zero => exact getD_map_const _ r x
    | succ n => exact ih n

theorem rangeMap_inner (w : Nat) (rows : List (List Val))
    (hr : ∀ r ∈ rows, r.length = w) :
    (List.range rows.length).map
        (fun y => ((List.range w).map (fun x => quadLE (sampleAt rows y x))).flatten)
      = rows.map (fun r => (r.map quadLE).flatten) := by
  induction rows with
  | nil => rfl
  | cons r t ih =>
    have hrw : r.length = w := hr r (List.mem_cons_self r t)
    simp only [List.length_cons, List.range_succ_eq_map, List.map_cons, List.map_map]
    refine congrArg₂ List.cons ?_ ?_
    · subst hrw
      refine congrArg List.flatten ?_
      have : (fun x => quadLE (sampleAt (r :: t) 0 x))
          = fun x => quadLE (r.getD x (Val.fin Frac.zero)) := rfl
      rw [this, show (fun x => quadLE (r.getD x (Val.fin Frac.zero)))
            = quadLE ∘ (fun x => r.getD x (Val.fin Frac.zero)) from rfl,
          ← List.map_map, getD_range_map]
    · have ht := ih (fun r' hr' => hr r' (List.mem_cons_of_mem _ hr'))
      simpa only [Function.comp, sampleAt, List.getD_cons_succ] using ht

theorem flatten_replicate_zero (n k : Nat) :
    (List.replicate n (List.replicate k (0 : Nat))).flatten = List.replicate (n * k) 0 := by
  induction n with
  | zero => simp
  | succ m ih =>
    simp only [List.replicate_succ, List.flatten_cons, ih]
    rw [show (m + 1) * k = k + m * k by ring, List.replicate_add]

/-! ## Claim C3 -/

/-- Claim C3: round-trip of the sample codec.  Float32 values are in
bijection with their 32-bit patterns, so the claim is quantified over all
bit patterns `b < 2^32` (0.0, −0.0, subnormals and NaN patterns included):
decoding the little-endian quad produced for `b` yields `b` bit-exactly,
and the quad really is 4 bytes, least-significant byte first.  The model is
endianness-free: the byte order is the one fixed by `struct.pack('<f', ...)`
in the source, regardless of host. -/
theorem C3_sample_codec_round_trip (b : Nat) (h : b < 2 ^ 32) :
    bitsOfQuad (quadOfBits b) = b ∧ (quadOfBits b).length = 4 ∧
    ∀ y ∈ quadOfBits b, y < 256 := by
  refine ⟨?_, rfl, ?_⟩
  · simp only [quadOfBits, bitsOfQuad]
    omega
  · intro y hy
    simp only [quadOfBits, List.mem_cons, List.not_mem_nil, or_false] at hy
    rcases hy with h1 | h1 | h1 | h1 <;> subst h1 <;> omega

/-- Witness for C3 at the bit pattern of `1.0f`. -/
theorem C3_sample_codec_round_trip_witness :
    (0x3F800000 : Nat) < 2 ^ 32 ∧ bitsOfQuad (quadOfBits 0x3F800000) = 0x3F800000 :=
  ⟨by norm_num, (C3_sample_codec_round_trip 0x3F800000 (by norm_num)).1⟩

/-! ## Claim C6 -/

/-- Claim C6: degenerate range.  When the global range satisfies
`max ≤ min` the source's branch `if global_max > global_min` is false, so
the frame is filled with the constant `0.0` — no division by
`(max − min)` occurs on that branch — and the packed buffer consists of
W×H×4 zero bytes (the bit pattern of `0.0` being 0). -/
theorem C6_degenerate_range (f : Frame) (gmin gmax : Val)
    (hle : vle gmax gmin = true) :
    normalizeRows gmin gmax f.samples
      = f.samples.map (List.map (fun _ => Val.fin Frac.zero)) ∧
    (exr_to_rgba8_bytes_with_global_scale f gmin gmax).1
      = List.replicate (f.height * (f.width * 4)) 0 := by
  have hbr : vgt gmax gmin = false := vgt_eq_false_of_vle gmax gmin hle
  have hfill : normalizeRows gmin gmax f.samples
      = f.samples.map (List.map (fun _ => Val.fin Frac.zero)) := by
    unfold normalizeRows
    rw [hbr]
    simp
  refine ⟨hfill, ?_⟩
  show rgbaLoopBytes f.width f.height (normalizeRows gmin gmax f.samples) = _
  rw [hfill]
  unfold rgbaLoopBytes
  have hq : quadLE (Val.fin Frac.zero) = List.replicate 4 0 := rfl
  calc ((List.range f.height).map (fun y => ((List.range f.width).map
          (fun x => quadLE (sampleAt (f.samples.map (List.map (fun _ => Val.fin Frac.zero))) y x))).flatten)).flatten
      = ((List.range f.height).map (fun _ => (List.replicate (f.width * 4) 0 : List Nat))).flatten := by
        refine congrArg List.flatten (List.map_congr_left ?_)
        intro y _
        rw [show (fun x => quadLE (sampleAt (f.samples.map (List.map (fun _ => Val.fin Frac.zero))) y x))
              = fun _ => (List.replicate 4 0 : List Nat) by
            funext x; rw [sampleAt_map_const, hq]]
        rw [List.map_const', List.length_range, flatten_replicate_zero]
    _ = List.replicate (f.height * (f.width * 4)) 0 := by
        rw [List.map_const', List.length_range, flatten_replicate_zero]

/-- Witness for C6: both scenario frames packed against the degenerate
range `min = max = 5` come out as all-zero sample grids. -/
theorem C6_degenerate_range_witness :
    vle (Val.fin ⟨5, 1⟩) (Val.fin ⟨5, 1⟩) = true ∧
    (exr_to_rgba8_bytes_with_global_scale sampleFrame1 (Val.fin ⟨5, 1⟩) (Val.fin ⟨5, 1⟩)).1
      = List.replicate (2 * (2 * 4)) 0 :=
  ⟨by decide, (C6_degenerate_range sampleFrame1 _ _ (by decide)).2⟩

/-! ## Claim C1 -/

/-- Claim C1 is false of the source: there is no Raw mode.  Counterexample
at the spec's own scenario (2×2 frames `[[0,1],[2,3]]`, `[[1,2],[3,4]]`):
the scan yields the global range (0, 4), and the buffer the source packs
for the first frame is not the little-endian concatenation of the raw
samples' bit patterns — the samples are normalized first. -/
theorem C1_raw_mode_counterexample :
    scanFold sampleFiles = (Val.fin ⟨0, 1⟩, Val.fin ⟨4, 1⟩) ∧
    (exr_to_rgba8_bytes_with_global_scale sampleFrame1 (Val.fin ⟨0, 1⟩) (Val.fin ⟨4, 1⟩)).1
      ≠ rawPackRows sampleFrame1.samples :=
  ⟨by decide, by decide⟩

/-- Claim C1 (amended): the encoder has no Raw mode; every frame is packed
in normalized mode.  For every frame and global range, the packed buffer
equals the little-endian byte concatenation of the bit patterns of the
*normalized* samples in scan order (row-major). -/
theorem C1_packed_buffer_is_normalized_scan_order (f : Frame) (gmin gmax : Val)
    (hwf : f.WF) :
    (exr_to_rgba8_bytes_with_global_scale f gmin gmax).1
      = rawPackRows (normalizeRows gmin gmax f.samples) := by
  obtain ⟨hh, hw⟩ := hwf
  have hrow : ∀ r ∈ normalizeRows gmin gmax f.samples, r.length = f.width := by
    unfold normalizeRows
    split <;>
      (intro r hr
       simp only [List.mem_map] at hr
       obtain ⟨r0, hr0, rfl⟩ := hr
       simp [hw r0 hr0])
  have hlen : (normalizeRows gmin gmax f.samples).length = f.height := by
    unfold normalizeRows
    split <;> simp [hh]
  show rgbaLoopBytes f.width f.height (normalizeRows gmin gmax f.samples)
      = rawPackRows (normalizeRows gmin gmax f.samples)
  unfold rgbaLoopBytes rawPackRows
  rw [← hlen]
  exact congrArg List.flatten (rangeMap_inner f.width _ hrow)

/-- Witness for C1 (amended) at the scenario's first frame and range. -/
theorem C1_packed_buffer_is_normalized_scan_order_witness :
    sampleFrame1.WF ∧
    (exr_to_rgba8_bytes_with_global_scale sampleFrame1 (Val.fin ⟨0, 1⟩) (Val.fin ⟨4, 1⟩)).1
      = rawPackRows (normalizeRows (Val.fin ⟨0, 1⟩) (Val.fin ⟨4, 1⟩) sampleFrame1.samples) :=
  ⟨by decide, C1_packed_buffer_is_normalized_scan_order sampleFrame1 _ _ (by decide)⟩

/-! ## Pipeline lemmas -/

theorem exr_width (f : Frame) (gmin gmax : Val) :
    (exr_to_rgba8_bytes_with_global_scale f gmin gmax).2.1 = f.width := rfl

theorem exr_height (f : Frame) (gmin gmax : Val) :
    (exr_to_rgba8_bytes_with_global_scale f gmin gmax).2.2 = f.height := rfl

theorem length_flatten_quads (w : Nat) (rows : List (List Val)) (y : Nat) :
    (((List.range w).map (fun x => quadLE (sampleAt rows y x))).flatten).length = w * 4 := by
  rw [List.length_flatten, List.map_map]
  rw [show List.length ∘ (fun x => quadLE (sampleAt rows y x)) = fun _ => 4 from
    funext fun x => rfl]
  rw [List.map_const', List.length_range, List.sum_replicate, smul_eq_mul]

theorem length_rgbaLoopBytes (w h : Nat) (rows : List (List Val)) :
    (rgbaLoopBytes w h rows).length = h * (w * 4) := by
  unfold rgbaLoopBytes
  rw [List.length_flatten, List.map_map]
  rw [show List.length ∘
        (fun y => ((List.range w).map (fun x => quadLE (sampleAt rows y x))).flatten)
      = fun y => w * 4 from funext fun y => length_flatten_quads w rows y]
  rw [List.map_const', List.length_range, List.sum_replicate, smul_eq_mul]

theorem length_exr_bytes (f : Frame) (gmin gmax : Val) :
    (exr_to_rgba8_bytes_with_global_scale f gmin gmax).1.length
      = f.height * (f.width * 4) :=
  length_rgbaLoopBytes f.width f.height _

theorem streamRest_all_match (w h : Nat) (gmin gmax : Val) (fs : List FileEntry)
    (hg : ∀ f ∈ fs, f.2.width = w ∧ f.2.height = h) :
    streamRest w h gmin gmax fs
      = (fs.map (fun f =>
          Event.wrote (exr_to_rgba8_bytes_with_global_scale f.2 gmin gmax).1), none) := by
  induction fs with
  | nil => rfl
  | cons f t ih =>
    obtain ⟨hw, hh⟩ := hg f (List.mem_cons_self f t)
    have ht := ih (fun f' h' => hg f' (List.mem_cons_of_mem _ h'))
    rw [streamRest, if_neg (by rw [exr_width, exr_height, hw, hh]; simp), ht]
    rfl

theorem streamRest_first_mismatch (w h : Nat) (gmin gmax : Val)
    (pre : List FileEntry) (bad : FileEntry) (post : List FileEntry)
    (hpre : ∀ f ∈ pre, f.2.width = w ∧ f.2.height = h)
    (hbad : ¬ (bad.2.width = w ∧ bad.2.height = h)) :
    streamRest w h gmin gmax (pre ++ bad :: post)
      = (pre.map (fun f =>
          Event.wrote (exr_to_rgba8_bytes_with_global_scale f.2 gmin gmax).1),
         some (bad.1, bad.2.width, bad.2.height)) := by
  induction pre with
  | nil =>
    simp only [List.nil_append, List.map_nil]
    rw [streamRest, if_pos (by rw [exr_width, exr_height]; exact not_and_or.mp hbad)]
    rw [exr_width, exr_height]
  | cons f t ih =>
    obtain ⟨hw, hh⟩ := hpre f (List.mem_cons_self f t)
    have ht := ih (fun f' h' => hpre f' (List.mem_cons_of_mem _ h'))
    simp only [List.cons_append]
    rw [streamRest, if_neg (by rw [exr_width, exr_height, hw, hh]; simp), ht]
    rfl

theorem streamRest_events_wrote (w h : Nat) (gmin gmax : Val) (fs : List FileEntry) :
    ∀ e ∈ (streamRest w h gmin gmax fs).1, ∃ f ∈ fs,
      e = Event.wrote (exr_to_rgba8_bytes_with_global_scale f.2 gmin gmax).1 := by
  induction fs with
  | nil => intro e he; simp [streamRest] at he
  | cons f t ih =>
    intro e he
    rw [streamRest] at he
    split at he
    · simp at he
    · simp only [List.mem_cons] at he
      rcases he with rfl | he
      · exact ⟨f, List.mem_cons_self f t, rfl⟩
      · obtain ⟨f', hf', rfl⟩ := ih e he
        exact ⟨f', List.mem_cons_of_mem _ hf', rfl⟩

theorem writesOf_append (a b : List Event) :
    writesOf (a ++ b) = writesOf a ++ writesOf b := by
  induction a with
  | nil => rfl
  | cons e t ih => cases e <;> simp [writesOf, ih]

theorem writesOf_scanned_map (files : List FileEntry) :
    writesOf (files.map (fun f => Event.scanned f.1)) = [] := by
  induction files with
  | nil => rfl
  | cons f t ih => simp [writesOf, ih]

theorem writesOf_wrote_map {α : Type} (g : α → List Nat) (l : List α) :
    writesOf (l.map (fun x => Event.wrote (g x))) = l.map g := by
  induction l with
  | nil => rfl
  | cons x t ih => simp [writesOf, ih]

/-- Case analysis of `mainRun` on a non-empty file list: either the
sentinel check fires, or a geometry mismatch is hit in the remaining-frames
loop, or the run streams every frame and finishes. -/
theorem mainRun_shape (first : FileEntry) (rest : List FileEntry) (enc : Nat) :
    (((scanFold (first :: rest)).1 = Val.pinf ∨ (scanFold (first :: rest)).2 = Val.ninf) ∧
      mainRun (first :: rest) enc
        = ⟨(first :: rest).map (fun f => Event.scanned f.1), 1, .rangeErr⟩)
    ∨ (¬ ((scanFold (first :: rest)).1 = Val.pinf ∨ (scanFold (first :: rest)).2 = Val.ninf) ∧
      ∃ e, (streamRest first.2.width first.2.height (scanFold (first :: rest)).1
              (scanFold (first :: rest)).2 rest).2 = some e ∧
        mainRun (first :: rest) enc
          = ⟨(first :: rest).map (fun f => Event.scanned f.1) ++
              Event.wrote (exr_to_rgba8_bytes_with_global_scale first.2
                (scanFold (first :: rest)).1 (scanFold (first :: rest)).2).1 ::
              (streamRest first.2.width first.2.height (scanFold (first :: rest)).1
                (scanFold (first :: rest)).2 rest).1 ++
              [Event.sinkClosed, Event.procTerminated],
             1, .geomErr e.1 (first.2.width, first.2.height) (e.2.1, e.2.2)⟩)
    ∨ (¬ ((scanFold (first :: rest)).1 = Val.pinf ∨ (scanFold (first :: rest)).2 = Val.ninf) ∧
      (streamRest first.2.width first.2.height (scanFold (first :: rest)).1
          (scanFold (first :: rest)).2 rest).2 = none ∧
        mainRun (first :: rest) enc
          = ⟨(first :: rest).map (fun f => Event.scanned f.1) ++
              Event.wrote (exr_to_rgba8_bytes_with_global_scale first.2
                (scanFold (first :: rest)).1 (scanFold (first :: rest)).2).1 ::
              (streamRest first.2.width first.2.height (scanFold (first :: rest)).1
                (scanFold (first :: rest)).2 rest).1 ++
              [Event.sinkClosed, Event.procWaited enc],
             0, .done⟩) := by
  by_cases hs : (scanFold (first :: rest)).1 = Val.pinf ∨ (scanFold (first :: rest)).2 = Val.ninf
  · exact Or.inl ⟨hs, by simp only [mainRun]; rw [if_pos hs]⟩
  · right
    rcases h2 : (streamRest first.2.width first.2.height (scanFold (first :: rest)).1
        (scanFold (first :: rest)).2 rest).2 with _ | e
    · refine Or.inr ⟨hs, rfl, ?_⟩
      simp only [mainRun]
      rw [if_neg hs, exr_width, exr_height, h2]
    · refine Or.inl ⟨hs, e, rfl, ?_⟩
      simp only [mainRun]
      rw [if_neg hs, exr_width, exr_height, h2]

/-- `mainRun` on a run whose frames all share the first frame's geometry
and whose scan produced a usable range. -/
theorem mainRun_success_spec (first : FileEntry) (rest : List FileEntry) (enc : Nat)
    (hs : ¬ ((scanFold (first :: rest)).1 = Val.pinf ∨
             (scanFold (first :: rest)).2 = Val.ninf))
    (hg : ∀ f ∈ rest, f.2.width = first.2.width ∧ f.2.height = first.2.height) :
    mainRun (first :: rest) enc
      = ⟨(first :: rest).map (fun f => Event.scanned f.1) ++
          Event.wrote (exr_to_rgba8_bytes_with_global_scale first.2
            (scanFold (first :: rest)).1 (scanFold (first :: rest)).2).1 ::
          rest.map (fun f => Event.wrote (exr_to_rgba8_bytes_with_global_scale f.2
            (scanFold (first :: rest)).1 (scanFold (first :: rest)).2).1) ++
          [Event.sinkClosed, Event.procWaited enc],
         0, .done⟩ := by
  simp only [mainRun]
  rw [if_neg hs, exr_width, exr_height,
    streamRest_all_match first.2.width first.2.height (scanFold (first :: rest)).1
      (scanFold (first :: rest)).2 rest hg]

/-- `mainRun` on a run whose remaining-frames loop hits its first geometry
mismatch at `bad`, after the matching prefix `pre`. -/
theorem mainRun_geom_spec (first : FileEntry) (pre post : List FileEntry)
    (bad : FileEntry) (enc : Nat)
    (hs : ¬ ((scanFold (first :: (pre ++ bad :: post))).1 = Val.pinf ∨
             (scanFold (first :: (pre ++ bad :: post))).2 = Val.ninf))
    (hpre : ∀ f ∈ pre, f.2.width = first.2.width ∧ f.2.height = first.2.height)
    (hbad : ¬ (bad.2.width = first.2.width ∧ bad.2.height = first.2.height)) :
    mainRun (first :: (pre ++ bad :: post)) enc
      = ⟨(first :: (pre ++ bad :: post)).map (fun f => Event.scanned f.1) ++
          Event.wrote (exr_to_rgba8_bytes_with_global_scale first.2
            (scanFold (first :: (pre ++ bad :: post))).1
            (scanFold (first :: (pre ++ bad :: post))).2).1 ::
          pre.map (fun f => Event.wrote (exr_to_rgba8_bytes_with_global_scale f.2
            (scanFold (first :: (pre ++ bad :: post))).1
            (scanFold (first :: (pre ++ bad :: post))).2).1) ++
          [Event.sinkClosed, Event.procTerminated],
         1, .geomErr bad.1 (first.2.width, first.2.height)
              (bad.2.width, bad.2.height)⟩ := by
  simp only [mainRun]
  rw [if_neg hs, exr_width, exr_height,
    streamRest_first_mismatch first.2.width first.2.height
      (scanFold (first :: (pre ++ bad :: post))).1
      (scanFold (first :: (pre ++ bad :: post))).2 pre bad post hpre hbad]

theorem writesOf_run_trace (scanl : List FileEntry) (b0 : List Nat)
    (mid : List (List Nat)) (tail2 : List Event) (h2 : writesOf tail2 = []) :
    writesOf ((scanl.map (fun f => Event.scanned f.1) ++
        Event.wrote b0 :: (mid.map Event.wrote)) ++ tail2)
      = b0 :: mid := by
  rw [writesOf_append, h2, List.append_nil, writesOf_append, writesOf_scanned_map,
    List.nil_append]
  simp only [writesOf]
  rw [show List.map Event.wrote mid = mid.map (fun b => Event.wrote (id b)) from by simp,
    writesOf_wrote_map]
  simp

/-! ## Claim C4 -/

/-- Claim C4: on a successful run over `n` input files whose frames all
have the canonical geometry (the first frame's (W, H)), exactly `n` frame
buffers are written to the encoder sink, each of W×H×4 bytes, in the order
of the input list (which is the lexicographic filename order, file
discovery being the out-of-scope collaborator that sorts), frame N's bytes
written in full before any byte of frame N+1 — each `Event.wrote` is one
whole frame buffer and the trace is sequential. -/
theorem C4_ordered_complete_stream (files : List FileEntry) (enc : Nat)
    (first : FileEntry) (rest : List FileEntry) (hf : files = first :: rest)
    (hs : ¬ ((scanFold files).1 = Val.pinf ∨ (scanFold files).2 = Val.ninf))
    (hg : ∀ f ∈ files, f.2.width = first.2.width ∧ f.2.height = first.2.height) :
    (mainRun files enc).result = RunExit.done ∧
    (mainRun files enc).exitCode = 0 ∧
    writesOf (mainRun files enc).trace
      = files.map (fun f => (exr_to_rgba8_bytes_with_global_scale f.2
          (scanFold files).1 (scanFold files).2).1) ∧
    (writesOf (mainRun files enc).trace).length = files.length ∧
    ∀ bs ∈ writesOf (mainRun files enc).trace,
      bs.length = first.2.width * first.2.height * 4 := by
  subst hf
  rw [mainRun_success_spec first rest enc hs
    (fun f hf' => hg f (List.mem_cons_of_mem _ hf'))]
  have hw : writesOf ((List.map (fun f => Event.scanned f.1) (first :: rest) ++
      Event.wrote (exr_to_rgba8_bytes_with_global_scale first.2
        (scanFold (first :: rest)).1 (scanFold (first :: rest)).2).1 ::
      List.map (fun f => Event.wrote (exr_to_rgba8_bytes_with_global_scale f.2
        (scanFold (first :: rest)).1 (scanFold (first :: rest)).2).1) rest) ++
      [Event.sinkClosed, Event.procWaited enc])
      = (first :: rest).map (fun f => (exr_to_rgba8_bytes_with_global_scale f.2
          (scanFold (first :: rest)).1 (scanFold (first :: rest)).2).1) := by
    rw [show List.map (fun f => Event.wrote (exr_to_rgba8_bytes_with_global_scale f.2
          (scanFold (first :: rest)).1 (scanFold (first :: rest)).2).1) rest
        = (rest.map (fun f => (exr_to_rgba8_bytes_with_global_scale f.2
            (scanFold (first :: rest)).1 (scanFold (first :: rest)).2).1)).map Event.wrote
        from by rw [List.map_map]; exact List.map_congr_left fun f _ => rfl]
    rw [writesOf_run_trace _ _ _ [Event.sinkClosed, Event.procWaited enc] rfl]
    rfl
  refine ⟨rfl, rfl, hw, ?_, ?_⟩
  · rw [hw, List.length_map]
  · intro bs hbs
    rw [hw] at hbs
    obtain ⟨f, hfm, rfl⟩ := List.mem_map.1 hbs
    rw [length_exr_bytes, (hg f hfm).1, (hg f hfm).2]
    ring

/-- Witness for C4 on the spec's two-frame scenario. -/
theorem C4_ordered_complete_stream_witness :
    (mainRun sampleFiles 0).result = RunExit.done ∧
    (writesOf (mainRun sampleFiles 0).trace).length = 2 ∧
    ∀ bs ∈ writesOf (mainRun sampleFiles 0).trace, bs.length = 2 * 2 * 4 := by
  have h := C4_ordered_complete_stream sampleFiles 0 ("frame000.exr", sampleFrame1)
    [("frame001.exr", sampleFrame2)] rfl (by decide) (by decide)
  exact ⟨h.1, h.2.2.2.1, h.2.2.2.2⟩

/-! ## Claim C5 -/

/-- Claim C5: geometry enforcement.  If some frame `bad` after the first
has a geometry differing from the canonical one (the first frame's), while
the frames `pre` between them match it, the run aborts with an error
identifying the offending file and both geometries, exits non-zero, the
sink is closed and the encoder process terminated (the trace ends with
exactly those two events), and the only frame buffers ever written are
those of the first frame and of `pre` — nothing of `bad` or of any later
frame reaches the sink. -/
theorem C5_geometry_enforcement (first : FileEntry) (pre post : List FileEntry)
    (bad : FileEntry) (enc : Nat)
    (hs : ¬ ((scanFold (first :: (pre ++ bad :: post))).1 = Val.pinf ∨
             (scanFold (first :: (pre ++ bad :: post))).2 = Val.ninf))
    (hpre : ∀ f ∈ pre, f.2.width = first.2.width ∧ f.2.height = first.2.height)
    (hbad : ¬ (bad.2.width = first.2.width ∧ bad.2.height = first.2.height)) :
    (mainRun (first :: (pre ++ bad :: post)) enc).result
      = RunExit.geomErr bad.1 (first.2.width, first.2.height)
          (bad.2.width, bad.2.height) ∧
    (mainRun (first :: (pre ++ bad :: post)) enc).exitCode = 1 ∧
    writesOf (mainRun (first :: (pre ++ bad :: post)) enc).trace
      = (first :: pre).map (fun f => (exr_to_rgba8_bytes_with_global_scale f.2
          (scanFold (first :: (pre ++ bad :: post))).1
          (scanFold (first :: (pre ++ bad :: post))).2).1) ∧
    ∃ t, (mainRun (first :: (pre ++ bad :: post)) enc).trace
        = t ++ [Event.sinkClosed, Event.procTerminated] := by
  rw [mainRun_geom_spec first pre post bad enc hs hpre hbad]
  refine ⟨rfl, rfl, ?_, ⟨_, rfl⟩⟩
  rw [show List.map (fun f => Event.wrote (exr_to_rgba8_bytes_with_global_scale f.2
        (scanFold (first :: (pre ++ bad :: post))).1
        (scanFold (first :: (pre ++ bad :: post))).2).1) pre
      = (pre.map (fun f => (exr_to_rgba8_bytes_with_global_scale f.2
          (scanFold (first :: (pre ++ bad :: post))).1
          (scanFold (first :: (pre ++ bad :: post))).2).1)).map Event.wrote
      from by rw [List.map_map]; exact List.map_congr_left fun f _ => rfl]
  rw [writesOf_run_trace _ _ _ [Event.sinkClosed, Event.procTerminated] rfl]
  rfl

/-- Witness for C5: a 2×2 first frame followed by a 3×1 frame aborts with
the geometry error naming the second file and both geometries. -/
theorem C5_geometry_enforcement_witness :
    (mainRun [("a.exr", sampleFrame1), ("b.exr", wideFrame)] 0).result
      = RunExit.geomErr "b.exr" (2, 2) (3, 1) ∧
    (mainRun [("a.exr", sampleFrame1), ("b.exr", wideFrame)] 0).exitCode = 1 := by
  have h := C5_geometry_enforcement ("a.exr", sampleFrame1) [] []
    ("b.exr", wideFrame) 0 (by decide) (by decide) (by decide)
  exact ⟨h.1, h.2.1⟩

/-! ## Claim C2 -/

/-- Claim C2 is false of the source: `proc.wait()`'s status is ignored.
Counterexample: a run over one file whose encoder process exits with
status 1 still ends `done` with process exit code 0 — no `EncoderError`,
no non-zero exit. -/
theorem C2_encoder_status_counterexample :
    (mainRun [("a.exr", sampleFrame1)] 1).result = RunExit.done ∧
    (mainRun [("a.exr", sampleFrame1)] 1).exitCode = 0 := by
  constructor <;> decide

/-- Claim C2 (amended): after the last frame the pipeline closes the sink
and then awaits the external encoder (the trace ends with `sinkClosed`
followed by `procWaited`), but the encoder's exit status is ignored: a run
that streams every frame reports success and exits 0 whatever the status,
and replacing the status by any other value changes nothing of the
outcome. -/
theorem C2_close_await_ignore_status (files : List FileEntry) (enc enc' : Nat)
    (h : (mainRun files enc).result = RunExit.done) :
    (mainRun files enc).exitCode = 0 ∧
    (∃ t, (mainRun files enc).trace
        = t ++ [Event.sinkClosed, Event.procWaited enc]) ∧
    (mainRun files enc').result = RunExit.done ∧
    (mainRun files enc').exitCode = 0 := by
  cases files with
  | nil => simp [mainRun] at h
  | cons first rest =>
    rcases mainRun_shape first rest enc with ⟨_, heq⟩ | ⟨_, e, h2, heq⟩ | ⟨hs, h2, heq⟩
    · rw [heq] at h; simp at h
    · rw [heq] at h; simp at h
    · rcases mainRun_shape first rest enc' with ⟨hs', _⟩ | ⟨_, e', h2', _⟩ | ⟨_, _, heq'⟩
      · exact absurd hs' hs
      · rw [h2] at h2'; simp at h2'
      · refine ⟨by rw [heq], ⟨_, by rw [heq]⟩, by rw [heq'], by rw [heq']⟩

/-- Witness for C2 (amended) on the two-frame scenario: statuses 1 and 7
both leave a successful, exit-0 run. -/
theorem C2_close_await_ignore_status_witness :
    (mainRun sampleFiles 1).result = RunExit.done ∧
    (mainRun sampleFiles 1).exitCode = 0 ∧
    (mainRun sampleFiles 7).exitCode = 0 := by
  have h := C2_close_await_ignore_status sampleFiles 1 7 (by decide)
  exact ⟨by decide, h.1, h.2.2.2⟩

/-! ## Claim C8 -/

/-- Claim C8: with zero matching input files the run aborts with a
diagnostic and exit 1 before anything happens (empty trace, so before any
scan or encode); and when the scan leaves a sentinel in place
(`global_min` still `+inf` or `global_max` still `-inf`), the run aborts
with the range error and exit 1 after the scan events only — no frame is
ever encoded or streamed (no write event). -/
theorem C8_range_failure (files : List FileEntry) (enc : Nat)
    (h : files = [] ∨ (scanFold files).1 = Val.pinf ∨
         (scanFold files).2 = Val.ninf) :
    (mainRun files enc).exitCode = 1 ∧
    writesOf (mainRun files enc).trace = [] ∧
    (mainRun files enc).result ≠ RunExit.done ∧
    (files = [] → (mainRun files enc).trace = [] ∧
      (mainRun files enc).result = RunExit.noInput) ∧
    (files ≠ [] → (mainRun files enc).result = RunExit.rangeErr ∧
      (mainRun files enc).trace = files.map (fun f => Event.scanned f.1)) := by
  cases files with
  | nil => exact ⟨rfl, rfl, by simp [mainRun], fun _ => ⟨rfl, rfl⟩, fun hne => absurd rfl hne⟩
  | cons first rest =>
    have hs : (scanFold (first :: rest)).1 = Val.pinf ∨
        (scanFold (first :: rest)).2 = Val.ninf := h.resolve_left (by simp)
    rcases mainRun_shape first rest enc with ⟨_, heq⟩ | ⟨hns, _⟩ | ⟨hns, _⟩
    · rw [heq]
      exact ⟨rfl, writesOf_scanned_map _, by simp, fun hc => by simp at hc,
        fun _ => ⟨rfl, rfl⟩⟩
    · exact absurd hs hns
    · exact absurd hs hns

/-- Witness for C8 on the empty input list. -/
theorem C8_range_failure_witness :
    (mainRun ([] : List FileEntry) 0).exitCode = 1 ∧
    (mainRun ([] : List FileEntry) 0).trace = [] ∧
    (mainRun ([] : List FileEntry) 0).result = RunExit.noInput := by
  have h := C8_range_failure [] 0 (Or.inl rfl)
  exact ⟨h.1, (h.2.2.2.1 rfl).1, (h.2.2.2.1 rfl).2⟩

/-! ## Claim C10 -/

theorem foldl_nanprop (op : Val → Val → Val) (h1 : ∀ y, op Val.nan y = Val.nan)
    (h2 : ∀ a, op a Val.nan = Val.nan) :
    ∀ (xs : List Val) (a : Val), (a = Val.nan ∨ xs.any Val.isNaN = true) →
      xs.foldl op a = Val.nan := by
  intro xs
  induction xs with
  | nil =>
    intro a h
    rcases h with rfl | h
    · rfl
    · simp at h
  | cons y ys ih =>
    intro a h
    rcases h with rfl | h
    · exact ih _ (Or.inl (h1 y))
    · simp only [List.any_cons, Bool.or_eq_true] at h
      rcases h with hy | hys
      · have hyn : y = Val.nan := by
          cases y <;> first | rfl | simp [Val.isNaN] at hy
        subst hyn
        exact ih _ (Or.inl (h2 a))
      · exact ih _ (Or.inr hys)

theorem npMin_nan (l : List Val) (h : l.any Val.isNaN = true) : npMin l = Val.nan := by
  cases l with
  | nil => simp at h
  | cons x xs =>
    simp only [List.any_cons, Bool.or_eq_true] at h
    refine foldl_nanprop vminNP (fun y => by cases y <;> rfl) (fun a => by cases a <;> rfl)
      xs x ?_
    rcases h with hx | hxs
    · exact Or.inl (by cases x <;> first | rfl | simp [Val.isNaN] at hx)
    · exact Or.inr hxs

theorem npMax_nan (l : List Val) (h : l.any Val.isNaN = true) : npMax l = Val.nan := by
  cases l with
  | nil => simp at h
  | cons x xs =>
    simp only [List.any_cons, Bool.or_eq_true] at h
    refine foldl_nanprop vmaxNP (fun y => by cases y <;> rfl) (fun a => by cases a <;> rfl)
      xs x ?_
    rcases h with hx | hxs
    · exact Or.inl (by cases x <;> first | rfl | simp [Val.isNaN] at hx)
    · exact Or.inr hxs

theorem scanUpd_nan (g : Val × Val) : scanUpd g Val.nan Val.nan = g := by
  obtain ⟨g1, g2⟩ := g
  cases g1 <;> cases g2 <;> rfl

theorem scanFold_filter_nan (files : List FileEntry) :
    scanFold files = scanFold (files.filter (fun f => ! f.2.hasNaN)) := by
  have aux : ∀ (fs : List FileEntry) (g : Val × Val),
      fs.foldl (fun g f => scanUpd g (get_exr_min_max f.2).1 (get_exr_min_max f.2).2) g
        = (fs.filter (fun f => ! f.2.hasNaN)).foldl
            (fun g f => scanUpd g (get_exr_min_max f.2).1 (get_exr_min_max f.2).2) g := by
    intro fs
    induction fs with
    | nil => intro g; rfl
    | cons f t ih =>
      intro g
      by_cases hn : f.2.hasNaN = true
      · have hm1 : (get_exr_min_max f.2).1 = Val.nan := npMin_nan _ hn
        have hm2 : (get_exr_min_max f.2).2 = Val.nan := npMax_nan _ hn
        rw [List.filter_cons_of_neg (by simp [hn]), List.foldl_cons, hm1, hm2, scanUpd_nan]
        exact ih g
      · rw [List.filter_cons_of_pos (by simp [hn]), List.foldl_cons, List.foldl_cons]
        exact ih _
  exact aux files _

/-- Claim C10: implicit NaN behavior of the range scan.  A frame holding at
least one NaN sample has NaN as its per-file min and max (numpy's `.min()`
and `.max()` propagate NaN); NaN compares false against the running bounds,
so such a frame leaves the running pair unchanged; consequently the global
range equals the one computed from the NaN-free frames alone, and when
every frame contains a NaN the ±inf sentinels survive the scan and the run
aborts through the range-error path with exit 1. -/
theorem C10_nan_frames_contribute_nothing (files : List FileEntry) (enc : Nat) :
    (∀ f ∈ files, f.2.hasNaN = true →
      (get_exr_min_max f.2).1 = Val.nan ∧ (get_exr_min_max f.2).2 = Val.nan) ∧
    (∀ g : Val × Val, scanUpd g Val.nan Val.nan = g) ∧
    scanFold files = scanFold (files.filter (fun f => ! f.2.hasNaN)) ∧
    ((∀ f ∈ files, f.2.hasNaN = true) →
      scanFold files = (Val.pinf, Val.ninf) ∧
      (files ≠ [] → (mainRun files enc).result = RunExit.rangeErr ∧
        (mainRun files enc).exitCode = 1)) := by
  refine ⟨fun f _ hn => ⟨npMin_nan _ hn, npMax_nan _ hn⟩, scanUpd_nan,
    scanFold_filter_nan files, fun hall => ?_⟩
  have hempty : files.filter (fun f => ! f.2.hasNaN) = [] := by
    rw [List.filter_eq_nil_iff]
    intro f hf
    simp [hall f hf]
  have hsent : scanFold files = (Val.pinf, Val.ninf) := by
    rw [scanFold_filter_nan files, hempty]
    rfl
  refine ⟨hsent, fun hne => ?_⟩
  cases files with
  | nil => exact absurd rfl hne
  | cons first rest =>
    rcases mainRun_shape first rest enc with ⟨_, heq⟩ | ⟨hns, _⟩ | ⟨hns, _⟩
    · rw [heq]
      exact ⟨rfl, rfl⟩
    · exact absurd (Or.inl (by rw [hsent])) hns
    · exact absurd (Or.inl (by rw [hsent])) hns

/-- Witness for C10 on a single all-NaN frame: the run aborts through the
range-error path. -/
theorem C10_nan_frames_contribute_nothing_witness :
    (mainRun [("n.exr", nanFrame)] 0).result = RunExit.rangeErr ∧
    (mainRun [("n.exr", nanFrame)] 0).exitCode = 1 :=
  ((C10_nan_frames_contribute_nothing [("n.exr", nanFrame)] 0).2.2.2
    (by decide)).2 (by simp)

/-! ## Claim C9 -/

/-- Claim C9 is false of the source: the output path is a required CLI
argument, not one with a default.  Counterexample: `sys.argv = [tool,
input_dir]` takes the `len(sys.argv) < 3` branch — usage diagnostic and
`sys.exit(1)` — whatever `os.path.isdir` would say, instead of running the
pipeline with a default output filename. -/
theorem C9_default_output_counterexample :
    parseCli ["tool", "indir"] (fun _ => true) = CliOutcome.usageError ∧
    cliExitCode (parseCli ["tool", "indir"] (fun _ => true)) = 1 :=
  ⟨rfl, rfl⟩

/-- Claim C9 (amended): invoking the tool with only `<input_dir>` exits
non-zero with a usage diagnostic — the output path is required; only the
channel name is optional and defaults to `'Z'`.  With both arguments
present, a non-directory input path is the remaining diagnostic exit, and
a directory input proceeds with exactly the given output path. -/
theorem C9_output_path_required (argv : List String) (isDir : String → Bool) :
    (argv.length < 3 → parseCli argv isDir = CliOutcome.usageError) ∧
    (∀ p dir out rest, argv = p :: dir :: out :: rest → isDir dir = true →
      parseCli argv isDir = CliOutcome.proceed dir out (rest.headD "Z")) ∧
    (∀ p dir out rest, argv = p :: dir :: out :: rest → isDir dir = false →
      parseCli argv isDir = CliOutcome.notDirError dir) := by
  refine ⟨fun h => by unfold parseCli; rw [if_pos h], ?_, ?_⟩
  · rintro p dir out rest rfl hdir
    unfold parseCli
    rw [if_neg (by simp)]
    rw [show (p :: dir :: out :: rest).getD 1 "" = dir from rfl,
      show (p :: dir :: out :: rest).getD 2 "" = out from rfl, if_pos hdir]
    cases rest with
    | nil =>
      rw [if_neg (by simp)]
      rfl
    | cons c cs =>
      rw [if_pos (by simp)]
      rfl
  · rintro p dir out rest rfl hdir
    unfold parseCli
    rw [if_neg (by simp)]
    rw [show (p :: dir :: out :: rest).getD 1 "" = dir from rfl]
    rw [if_neg (by simp [hdir])]

/-- Witness for C9 (amended): with the output path supplied the run
proceeds, with the default channel `'Z'`. -/
theorem C9_output_path_required_witness :
    parseCli ["tool", "indir", "out.mkv"] (fun _ => true)
      = CliOutcome.proceed "indir" "out.mkv" "Z" :=
  (C9_output_path_required ["tool", "indir", "out.mkv"] (fun _ => true)).2.1
    "tool" "indir" "out.mkv" [] rfl rfl

/-! ## Claim C7 -/

theorem getD_mem_or {α : Type} (l : List α) (n : Nat) (d : α) :
    l.getD n d ∈ l ∨ l.getD n d = d := by
  induction l generalizing n with
  | nil => right; cases n <;> rfl
  | cons a t ih =>
    cases n with
    | zero => left; exact List.mem_cons_self a t
    | succ m =>
      rw [List.getD_cons_succ]
      rcases ih m with hm | hd
      · exact Or.inl (List.mem_cons_of_mem _ hm)
      · exact Or.inr hd

/-- Positional structure of a trace of the form
scan events ++ first write ++ further writes ++ closing events: every
scan index precedes every write index, and a write at any index is the
first frame's buffer or one of the loop's. -/
theorem trace_scan_write_split (files' : List FileEntry) (b0 : List Nat)
    (s1 tail2 : List Event)
    (hNs1 : ∀ e ∈ s1, ∃ bs, e = Event.wrote bs)
    (hT : ∀ e ∈ tail2, e.isScanned = false ∧ e.isWrote = false)
    (t : List Event)
    (ht : t = files'.map (fun f => Event.scanned f.1) ++
      (Event.wrote b0 :: (s1 ++ tail2)))
    (i j : Nat)
    (hsi : (t.getD i Event.sinkClosed).isScanned = true)
    (hwj : (t.getD j Event.sinkClosed).isWrote = true) :
    i < j ∧ ∀ bs, t.getD j Event.sinkClosed = Event.wrote bs →
      bs = b0 ∨ Event.wrote bs ∈ s1 := by
  subst ht
  have htail : ∀ e ∈ Event.wrote b0 :: (s1 ++ tail2), e.isScanned = false := by
    intro e he
    rcases List.mem_cons.1 he with rfl | he'
    · rfl
    · rcases List.mem_append.1 he' with hin | hin
      · obtain ⟨bs, rfl⟩ := hNs1 e hin
        rfl
      · exact (hT e hin).1
  have hbi : i < (files'.map (fun f => Event.scanned f.1)).length := by
    by_contra hge
    push_neg at hge
    rw [List.getD_append_right _ _ _ _ hge] at hsi
    rcases getD_mem_or (Event.wrote b0 :: (s1 ++ tail2))
        (i - (files'.map (fun f => Event.scanned f.1)).length) Event.sinkClosed with hm | hd
    · rw [htail _ hm] at hsi
      exact Bool.noConfusion hsi
    · rw [hd] at hsi
      exact Bool.noConfusion hsi
  have hbj : (files'.map (fun f => Event.scanned f.1)).length ≤ j := by
    by_contra hlt
    push_neg at hlt
    rw [List.getD_append _ _ _ _ hlt] at hwj
    rcases getD_mem_or (files'.map (fun f => Event.scanned f.1)) j Event.sinkClosed
        with hm | hd
    · obtain ⟨f, _, hf⟩ := List.mem_map.1 hm
      rw [← hf] at hwj
      exact Bool.noConfusion hwj
    · rw [hd] at hwj
      exact Bool.noConfusion hwj
  refine ⟨lt_of_lt_of_le hbi hbj, ?_⟩
  intro bs hbs
  rw [List.getD_append_right _ _ _ _ hbj] at hbs
  rcases getD_mem_or (Event.wrote b0 :: (s1 ++ tail2))
      (j - (files'.map (fun f => Event.scanned f.1)).length) Event.sinkClosed with hm | hd
  · rw [hbs] at hm
    rcases List.mem_cons.1 hm with hw0 | hm'
    · left
      injection hw0
    · rcases List.mem_append.1 hm' with hin | hin
      · exact Or.inr hin
      · have := (hT _ hin).2
        simp [Event.isWrote] at this
  · rw [hd] at hbs
    exact Event.noConfusion hbs

/-- Claim C7: phase ordering and immutability of the global range.  In the
trace of any run every scan event precedes every write event (the range
scan of all inputs completes before any byte reaches the encoder sink),
and every buffer written is the encoding of one of the input frames
against the single pair `scanFold files` — the same pair, computed from
all the files, for every frame of the run. -/
theorem C7_scan_completes_before_any_write (files : List FileEntry) (enc : Nat)
    (i j : Nat)
    (hsi : (((mainRun files enc).trace).getD i Event.sinkClosed).isScanned = true)
    (hwj : (((mainRun files enc).trace).getD j Event.sinkClosed).isWrote = true) :
    i < j ∧
    ∀ bs, ((mainRun files enc).trace).getD j Event.sinkClosed = Event.wrote bs →
      ∃ f ∈ files, bs = (exr_to_rgba8_bytes_with_global_scale f.2
        (scanFold files).1 (scanFold files).2).1 := by
  cases files with
  | nil =>
    exfalso
    have ht : (mainRun ([] : List FileEntry) enc).trace = [] := rfl
    rw [ht] at hwj
    rcases getD_mem_or ([] : List Event) j Event.sinkClosed with hm | hd
    · exact absurd hm (List.not_mem_nil _)
    · rw [hd] at hwj
      exact Bool.noConfusion hwj
  | cons first rest =>
    rcases mainRun_shape first rest enc with ⟨_, heq⟩ | ⟨_, e, h2, heq⟩ | ⟨hs, h2, heq⟩
    · exfalso
      have ht : (mainRun (first :: rest) enc).trace
          = (first :: rest).map (fun f => Event.scanned f.1) := by rw [heq]
      rw [ht] at hwj
      rcases getD_mem_or ((first :: rest).map (fun f => Event.scanned f.1)) j
          Event.sinkClosed with hm | hd
      · obtain ⟨f, _, hf⟩ := List.mem_map.1 hm
        rw [← hf] at hwj
        exact Bool.noConfusion hwj
      · rw [hd] at hwj
        exact Bool.noConfusion hwj
    · have ht : (mainRun (first :: rest) enc).trace
          = (first :: rest).map (fun f => Event.scanned f.1) ++
            (Event.wrote (exr_to_rgba8_bytes_with_global_scale first.2
                (scanFold (first :: rest)).1 (scanFold (first :: rest)).2).1 ::
              ((streamRest first.2.width first.2.height (scanFold (first :: rest)).1
                  (scanFold (first :: rest)).2 rest).1 ++
                [Event.sinkClosed, Event.procTerminated])) := by
        rw [heq]
        simp
      have hNs1 : ∀ e ∈ (streamRest first.2.width first.2.height
          (scanFold (first :: rest)).1 (scanFold (first :: rest)).2 rest).1,
          ∃ bs, e = Event.wrote bs := fun e he =>
        (streamRest_events_wrote _ _ _ _ rest e he).elim
          (fun f hf => ⟨_, hf.2⟩)
      have hT : ∀ e ∈ [Event.sinkClosed, Event.procTerminated],
          e.isScanned = false ∧ e.isWrote = false := by
        intro e he
        rcases List.mem_cons.1 he with rfl | he'
        · exact ⟨rfl, rfl⟩
        · rcases List.mem_cons.1 he' with rfl | he''
          · exact ⟨rfl, rfl⟩
          · exact absurd he'' (List.not_mem_nil _)
      obtain ⟨hij, hchar⟩ := trace_scan_write_split (first :: rest) _ _ _ hNs1 hT _ ht
        i j hsi hwj
      refine ⟨hij, fun bs hbs => ?_⟩
      rcases hchar bs hbs with rfl | hin
      · exact ⟨first, List.mem_cons_self first rest, rfl⟩
      · obtain ⟨f, hf, hfe⟩ := streamRest_events_wrote _ _ _ _ rest _ hin
        exact ⟨f, List.mem_cons_of_mem _ hf, by injection hfe⟩
    · have ht : (mainRun (first :: rest) enc).trace
          = (first :: rest).map (fun f => Event.scanned f.1) ++
            (Event.wrote (exr_to_rgba8_bytes_with_global_scale first.2
                (scanFold (first :: rest)).1 (scanFold (first :: rest)).2).1 ::
              ((streamRest first.2.width first.2.height (scanFold (first :: rest)).1
                  (scanFold (first :: rest)).2 rest).1 ++
                [Event.sinkClosed, Event.procWaited enc])) := by
        rw [heq]
        simp
      have hNs1 : ∀ e ∈ (streamRest first.2.width first.2.height
          (scanFold (first :: rest)).1 (scanFold (first :: rest)).2 rest).1,
          ∃ bs, e = Event.wrote bs := fun e he =>
        (streamRest_events_wrote _ _ _ _ rest e he).elim
          (fun f hf => ⟨_, hf.2⟩)
      have hT : ∀ e ∈ [Event.sinkClosed, Event.procWaited enc],
          e.isScanned = false ∧ e.isWrote = false := by
        intro e he
        rcases List.mem_cons.1 he with rfl | he'
        · exact ⟨rfl, rfl⟩
        · rcases List.mem_cons.1 he' with rfl | he''
          · exact ⟨rfl, rfl⟩
          · exact absurd he'' (List.not_mem_nil _)
      obtain ⟨hij, hchar⟩ := trace_scan_write_split (first :: rest) _ _ _ hNs1 hT _ ht
        i j hsi hwj
      refine ⟨hij, fun bs hbs => ?_⟩
      rcases hchar bs hbs with rfl | hin
      · exact ⟨first, List.mem_cons_self first rest, rfl⟩
      · obtain ⟨f, hf, hfe⟩ := streamRest_events_wrote _ _ _ _ rest _ hin
        exact ⟨f, List.mem_cons_of_mem _ hf, by injection hfe⟩

/-- Witness for C7 on the two-frame scenario: the scan event at index 0
precedes the write event at index 2. -/
theorem C7_scan_completes_before_any_write_witness :
    (((mainRun sampleFiles 0).trace).getD 0 Event.sinkClosed).isScanned = true ∧
    (((mainRun sampleFiles 0).trace).getD 2 Event.sinkClosed).isWrote = true ∧
    (0 : Nat) < 2 := by
  refine ⟨by decide, by decide, ?_⟩
  exact (C7_scan_completes_before_any_write sampleFiles 0 0 2 (by decide) (by decide)).1

end ExrRgb8
